import Mathlib

/-!
Verification of the hevx utility scripts.

This file gives a shallow embedding, in Lean 4, of the three Python scripts
of the repository:

* `src/.ycm_extra_conf.py` — compilation-flag lookup for an editor shim;
* `src/test/build-vulkan-sdk.py` — the dependency-ordered build driver
  (manifest filtering, the dependency-resolution loop, the recursive
  per-repository build sequence, directory-tree merging and the
  package-metadata rewrite);
* `src/test/create-report.py` — the CTest-XML-to-HTML report writer and the
  rolling index updater.

External effects (the filesystem, subprocess exit codes, the compilation
database) are modelled as explicit parameters; text is modelled as `String`
or `List Char`; the unbounded `while` loop of the build driver is modelled
with explicit fuel, so that non-termination is expressible as "for every
fuel the run is still out of fuel".
-/

namespace Hevx

/-! ## `.ycm_extra_conf.py` -/

namespace Ycm

/-- Index of the last occurrence of `c` in `cs`, if any.
Models Python's `str.rfind` (which returns -1 when absent; we use `Option`). -/
def lastIdxOf (cs : List Char) (c : Char) : Option Nat :=
  match cs.reverse.findIdx? (fun x => x = c) with
  | some i => some (cs.length - 1 - i)
  | none => none

/-- Models `os.path.splitext` (posix flavour, as used by the script):
the extension starts at the last `'.'` of the final path component, unless
that component has only dots up to that position (leading dots are not an
extension separator).  Transcribed from CPython's `genericpath._splitext`. -/
def splitext (p : String) : String × String :=
  let cs := p.toList
  let sepIdx : Option Nat := lastIdxOf cs '/'
  let dotIdx : Option Nat := lastIdxOf cs '.'
  match dotIdx with
  | none => (p, "")
  | some d =>
    let s : Nat := match sepIdx with | none => 0 | some i => i + 1
    -- CPython: `dotIndex > sepIndex` and some char in `[sepIndex+1, dotIndex)`
    -- is not a dot.
    if (match sepIdx with | none => true | some i => decide (i < d) : Bool) &&
       ((cs.drop s).take (d - s)).any (fun x => x ≠ '.') then
      (String.mk (cs.take d), String.mk (cs.drop d))
    else (p, "")

/-- `SOURCE_EXTENSIONS` from the script. -/
def SOURCE_EXTENSIONS : List String := [".cpp", ".cc", ".c"]

/-- `IsHeaderFile` from the script: the extension is one of the header
extensions. -/
def IsHeaderFile (filename : String) : Bool :=
  let extension := (splitext filename).2
  [".h", ".hxx", ".hpp", ".hh"].contains extension

/-- `FindCorrespondingSourceFile` from the script.  The filesystem is the
parameter `ex` (`os.path.exists`). -/
def FindCorrespondingSourceFile (ex : String → Bool) (filename : String) :
    String :=
  if IsHeaderFile filename then
    let basename := (splitext filename).1
    match SOURCE_EXTENSIONS.find? (fun e => ex (basename ++ e)) with
    | some e => basename ++ e
    | none => filename
  else filename

/-- The record returned by `database.GetCompilationInfoForFile`. -/
structure CompilationInfo where
  compiler_flags_ : List String
  compiler_working_dir_ : String

/-- The dictionary returned by `Settings`: either the empty dict or the
three-entry dict built by the script. -/
inductive SettingsResult where
  | empty : SettingsResult
  | entries (flags : List String) (include_paths_relative_to_dir : String)
      (override_filename : String) : SettingsResult
deriving DecidableEq, Repr

/-- `Settings` from the script.  The compilation database is the parameter
`db`; `kwargs['language']` and `kwargs['filename']` are the last two
arguments. -/
def Settings (ex : String → Bool) (db : String → CompilationInfo)
    (language filename : String) : SettingsResult :=
  if language = "cfamily" then
    let fn := FindCorrespondingSourceFile ex filename
    let ci := db fn
    if ci.compiler_flags_ = [] then .empty
    else .entries ci.compiler_flags_ ci.compiler_working_dir_ fn
  else .empty

/-- C7: for a path with a header extension, `Settings` queries the database
for the first existing sibling file with the same base name and an extension
tried in the order `.cpp`, `.cc`, `.c` (or the original path if none exists);
and whenever the database yields no compiler flags for the queried path,
`Settings` returns the empty result. -/
theorem c7_settings_header_lookup (ex : String → Bool)
    (db : String → CompilationInfo) (language filename : String) :
    (IsHeaderFile filename = true →
      FindCorrespondingSourceFile ex filename =
        ((SOURCE_EXTENSIONS.map
            (fun e => (splitext filename).1 ++ e)).find? ex).getD filename) ∧
    ((db (FindCorrespondingSourceFile ex filename)).compiler_flags_ = [] →
      Settings ex db language filename = .empty) := by
  constructor
  · intro h
    simp only [FindCorrespondingSourceFile, h, if_true, List.find?_map]
    cases hf : SOURCE_EXTENSIONS.find? (fun e => ex ((splitext filename).1 ++ e)) with
    | none =>
      have : SOURCE_EXTENSIONS.find? (ex ∘ fun e => (splitext filename).1 ++ e)
          = none := hf
      simp [this]
    | some e =>
      have : SOURCE_EXTENSIONS.find? (ex ∘ fun e => (splitext filename).1 ++ e)
          = some e := hf
      simp [this]
  · intro h
    by_cases hl : language = "cfamily"
    · simp only [Settings, hl, if_pos, h]
    · simp [Settings, hl]

/-- Witness for C7 at concrete inputs: for header `dir/f.hpp` with only
`dir/f.cc` existing, the lookup substitutes `dir/f.cc`; and a database with
no flags yields the empty settings. -/
theorem c7_settings_header_lookup_witness :
    FindCorrespondingSourceFile (fun s => s == "dir/f.cc") "dir/f.hpp"
      = "dir/f.cc" ∧
    Settings (fun _ => false) (fun _ => ⟨[], "wd"⟩) "cfamily" "a.h"
      = .empty := by
  constructor
  · have h := (c7_settings_header_lookup (fun s => s == "dir/f.cc")
      (fun _ => ⟨[], ""⟩) "cfamily" "dir/f.hpp").1 (by decide)
    rw [h]; decide
  · exact (c7_settings_header_lookup (fun _ => false)
      (fun _ => ⟨[], "wd"⟩) "cfamily" "a.h").2 (by decide)

end Ycm

/-! ## `test/build-vulkan-sdk.py`: pkgconfig rewrite (claim C4) -/

namespace BuildSdk

/-- Characters of the literal pattern `prefix}/lib64`. -/
def pat64 : List Char := "prefix\x7d/lib64".toList

/-- Characters of the literal replacement `prefix}/lib`. -/
def patLib : List Char := "prefix\x7d/lib".toList

/-- Semantics of `re.sub(pat + '$', rep, line)` for a literal pattern `pat`
containing no newline: Python's `$` (without `re.MULTILINE`) matches at the
end of the string or just before one trailing newline, so the substitution
fires exactly when the line ends with `pat` or with `pat` followed by a
newline, and replaces that single trailing occurrence. -/
def reSubAnchored (pat rep line : List Char) : List Char :=
  if (pat ++ ['\n']).isSuffixOf line then
    line.take (line.length - (pat.length + 1)) ++ rep ++ ['\n']
  else if pat.isSuffixOf line then
    line.take (line.length - pat.length) ++ rep
  else line

/-- The rewrite applied to each pkgconfig line by `build`
(`build-vulkan-sdk.py`, lines 201-211):
`re.sub(r'prefix\}/lib64$', r'prefix}/lib', line)`. -/
def rewriteLib64Line (line : List Char) : List Char :=
  reSubAnchored pat64 patLib line

/-- Modelled from the spec: the second script's rewrite rule is the reverse
substitution (a line ending in `prefix}/lib` becomes `prefix}/lib64`); that
second script is not under `src/`, so this definition follows the spec's
description of the reverse rule, with the same anchored-substitution
semantics as the rule that is in `src/`. -/
def rewriteLibRevLine (line : List Char) : List Char :=
  reSubAnchored patLib pat64 line

theorem suffix_snoc_cancel {α : Type} {l₁ l₂ : List α} {a : α} :
    l₁ ++ [a] <:+ l₂ ++ [a] ↔ l₁ <:+ l₂ := by
  constructor
  · rintro ⟨t, ht⟩
    rw [← List.append_assoc] at ht
    exact ⟨t, List.append_cancel_right ht⟩
  · rintro ⟨t, rfl⟩
    exact ⟨t, by simp⟩

theorem reSubAnchored_noop {pat rep body tail : List Char}
    (hp : '\n' ∉ pat) (hpne : pat ≠ [])
    (hnl : '\n' ∉ body) (ht : tail = [] ∨ tail = ['\n'])
    (h : ¬ pat <:+ body) :
    reSubAnchored pat rep (body ++ tail) = body ++ tail := by
  have h1 : ¬ (pat ++ ['\n']).isSuffixOf (body ++ tail) := by
    rw [List.isSuffixOf_iff_suffix]
    rcases ht with rfl | rfl
    · rw [List.append_nil]
      intro hs
      exact hnl (hs.mem (by simp))
    · rw [suffix_snoc_cancel]
      exact h
  have h2 : ¬ pat.isSuffixOf (body ++ tail) := by
    rw [List.isSuffixOf_iff_suffix]
    rcases ht with rfl | rfl
    · rw [List.append_nil]; exact h
    · intro hs
      rcases List.suffix_concat_iff.mp hs with rfl | ⟨t, rfl, _⟩
      · exact hpne rfl
      · exact hp (by simp)
  rw [reSubAnchored, if_neg (by simpa using h1), if_neg (by simpa using h2)]

theorem reSubAnchored_hit {pat rep pre tail : List Char}
    (hp : '\n' ∉ pat)
    (hnl : '\n' ∉ pre) (ht : tail = [] ∨ tail = ['\n']) :
    reSubAnchored pat rep (pre ++ pat ++ tail) = pre ++ rep ++ tail := by
  rcases ht with rfl | rfl
  · have h1 : ¬ (pat ++ ['\n']).isSuffixOf (pre ++ pat ++ []) := by
      rw [List.isSuffixOf_iff_suffix, List.append_nil]
      intro hs
      have : '\n' ∈ pre ++ pat := hs.mem (by simp)
      rcases List.mem_append.mp this with h' | h'
      · exact hnl h'
      · exact hp h'
    have h2 : pat.isSuffixOf (pre ++ pat ++ []) := by
      rw [List.isSuffixOf_iff_suffix, List.append_nil]
      exact List.suffix_append pre pat
    rw [reSubAnchored, if_neg (by simpa using h1), if_pos (by simp [h2])]
    simp
  · have h1 : (pat ++ ['\n']).isSuffixOf (pre ++ pat ++ ['\n']) := by
      rw [List.isSuffixOf_iff_suffix, List.append_assoc]
      exact List.suffix_append pre (pat ++ ['\n'])
    rw [reSubAnchored, if_pos (by simp [h1])]
    have hlen : (pre ++ pat ++ ['\n']).length - (pat.length + 1) = pre.length := by
      simp [List.length_append]
    have htake : List.take pre.length (pre ++ pat ++ ['\n']) = pre := by
      rw [List.append_assoc]; exact List.take_left' rfl
    rw [hlen, htake, List.append_assoc]

/-- C4: for every line (a body with no interior newline, plus an optional
trailing newline), the first script's rewrite is a no-op when `prefix}/lib64`
does not occur at the end of the body, and when the body ends with it the
rewrite replaces exactly that trailing occurrence with `prefix}/lib`, leaving
the rest of the line unchanged; and symmetrically for the second script's
reverse rule (modelled from the spec). -/
theorem c4_pkgconfig_rewrite (body tail : List Char)
    (hnl : '\n' ∉ body) (ht : tail = [] ∨ tail = ['\n']) :
    (¬ pat64 <:+ body → rewriteLib64Line (body ++ tail) = body ++ tail) ∧
    (∀ pre, body = pre ++ pat64 →
      rewriteLib64Line (body ++ tail) = pre ++ patLib ++ tail) ∧
    (¬ patLib <:+ body → rewriteLibRevLine (body ++ tail) = body ++ tail) ∧
    (∀ pre, body = pre ++ patLib →
      rewriteLibRevLine (body ++ tail) = pre ++ pat64 ++ tail) := by
  refine ⟨fun h => reSubAnchored_noop (by decide) (by decide) hnl ht h,
    fun pre hpre => ?_,
    fun h => reSubAnchored_noop (by decide) (by decide) hnl ht h,
    fun pre hpre => ?_⟩
  · subst hpre
    exact reSubAnchored_hit (by decide)
      (fun hm => hnl (List.mem_append.mpr (Or.inl hm))) ht
  · subst hpre
    exact reSubAnchored_hit (by decide)
      (fun hm => hnl (List.mem_append.mpr (Or.inl hm))) ht

/-- Witness for C4: a concrete pkgconfig line ending in the pattern is
rewritten, and a line without the trailing pattern is left unchanged. -/
theorem c4_pkgconfig_rewrite_witness :
    rewriteLib64Line ("libdir=$\x7bprefix\x7d/lib64".toList ++ ['\n'])
      = "libdir=$\x7b".toList ++ patLib ++ ['\n'] ∧
    rewriteLibRevLine ("Name: vulkan".toList ++ ['\n'])
      = "Name: vulkan".toList ++ ['\n'] := by
  constructor
  · exact (c4_pkgconfig_rewrite "libdir=$\x7bprefix\x7d/lib64".toList ['\n']
      (by decide) (Or.inr rfl)).2.1 "libdir=$\x7b".toList (by decide)
  · exact (c4_pkgconfig_rewrite "Name: vulkan".toList ['\n']
      (by decide) (Or.inr rfl)).2.2.1 (by decide)

/-! ### The dependency-resolution loop (claims C1, C2, C10)

`build_known_good` loads `known_good.json`, filters its `repos` list, builds
the descriptors without a `deps` field, and then repeatedly scans the
remaining descriptors, building each one whose dependencies are all in
`built`.  `build_repo` returns the repository's name, which is appended to
`built`; before returning, `build_repo` recursively resolves any nested
manifest in the cloned checkout against the same `built` list, which may
append further names first — that effect is abstracted below as the
parameter `extraOf`. -/

/-- One entry of a descriptor's `deps` list. -/
structure Dep where
  repo_name : String
  var_name : String
deriving DecidableEq, Repr

/-- A repository descriptor of `known_good.json`, with the fields the driver
reads; an `Option` field set to `none` models a JSON object without that
key. -/
structure Repo where
  name : String
  url : String := ""
  sub_dir : String := ""
  commit : String := ""
  build_platforms : Option (List String) := none
  prebuild : Option (List String) := none
  cmake_options : Option (List String) := none
  deps : Option (List Dep) := none
deriving DecidableEq, Repr

/-- The dependency names a descriptor declares (empty when it has no `deps`
field). -/
def depNamesOf (r : Repo) : List String :=
  (r.deps.getD []).map Dep.repo_name

/-- The manifest filter of `build_known_good` (lines 26-33): a descriptor
with a `build_platforms` field is appended once per `'linux'` entry of that
field; a descriptor without the field is appended unless it is named
`VulkanTools`. -/
def selectRepo (r : Repo) : List Repo :=
  match r.build_platforms with
  | some ps => (ps.filter (fun p => p == "linux")).map (fun _ => r)
  | none => if r.name == "VulkanTools" then [] else [r]

/-- The filtered working set of a manifest. -/
def selectRepos (rs : List Repo) : List Repo :=
  (rs.map selectRepo).flatten

/-- A `build_repo` invocation, recording the contents of `built` at the
moment of the call. -/
structure BuildEvent where
  repo : Repo
  builtBefore : List String
deriving DecidableEq, Repr

/-- The `built` list after one completed `build_repo` call: the recursive
`build_known_good(args, repo.sub_dir, built)` inside `build_repo` appends
the names of any nested manifest's repositories (abstracted as `extraOf r`),
and then `built.append(build_repo(...))` appends `r.name` itself. -/
def builtAfter (extraOf : Repo → List String) (built : List String)
    (r : Repo) : List String :=
  built ++ extraOf r ++ [r.name]

/-- The `ready` check of the while loop (lines 56-59): every `repo_name` in
`repo.deps` is in `built`.  (Every descriptor reaching the while loop has a
`deps` field — the first pass built those without one — so the `getD []`
default is never consulted on reachable states.) -/
def readyB (built : List String) (r : Repo) : Bool :=
  (depNamesOf r).all (fun d => built.contains d)

/-- One in-order scan over a descriptor list, building every descriptor
whose guard holds against the current `built` list, and recording each
`build_repo` invocation.  The first pass of `build_known_good` (lines 43-45)
is this scan with guard "has no `deps` field"; each iteration of the while
loop (lines 54-61) is this scan with guard `readyB`. -/
def scanPass (extraOf : Repo → List String)
    (guard : List String → Repo → Bool) :
    List Repo → List String → List String × List BuildEvent
  | [], built => (built, [])
  | r :: rs, built =>
    if guard built r then
      let res := scanPass extraOf guard rs (builtAfter extraOf built r)
      (res.1, ⟨r, built⟩ :: res.2)
    else scanPass extraOf guard rs built

/-- Result of the (potentially non-terminating) while loop, with explicit
fuel: `fuelOut` means the loop was still running after `fuel` iterations. -/
inductive LoopResult where
  | done (built : List String) (events : List BuildEvent)
  | fuelOut
deriving DecidableEq, Repr

/-- The `while repos:` loop of `build_known_good` (lines 54-64): scan, then
drop every descriptor whose name is now in `built`, and repeat while any
descriptor remains. -/
def whileLoopL (extraOf : Repo → List String) :
    Nat → List Repo → List String → LoopResult
  | _, [], built => .done built []
  | 0, _ :: _, _ => .fuelOut
  | fuel + 1, r :: rs, built =>
    let res := scanPass extraOf readyB (r :: rs) built
    let repos' := (r :: rs).filter (fun x => !(res.1.contains x.name))
    match whileLoopL extraOf fuel repos' res.1 with
    | .done b evs => .done b (res.2 ++ evs)
    | .fuelOut => .fuelOut

/-- The resolution phase of `build_known_good` (lines 40-64), on an
already-filtered working set `repos`: start from `previously_built`, drop
descriptors already built, build the `deps`-free ones, drop built ones,
then run the while loop. -/
def buildKnownGoodLoop (extraOf : Repo → List String) (fuel : Nat)
    (repos : List Repo) (previously_built : List String) : LoopResult :=
  let built := previously_built
  let repos1 := repos.filter (fun r => !(built.contains r.name))
  let res1 := scanPass extraOf (fun _ r => r.deps.isNone) repos1 built
  let repos2 := repos1.filter (fun r => !(res1.1.contains r.name))
  match whileLoopL extraOf fuel repos2 res1.1 with
  | .done b evs => .done b (res1.2 ++ evs)
  | .fuelOut => .fuelOut

section LoopLemmas

variable {e : Repo → List String} {g : List String → Repo → Bool}

theorem scanPass_fst_eq_append (e : Repo → List String)
    (g : List String → Repo → Bool) :
    ∀ (rs : List Repo) (b : List String),
      ∃ t, (scanPass e g rs b).1 = b ++ t := by
  intro rs
  induction rs with
  | nil => exact fun b => ⟨[], (List.append_nil b).symm⟩
  | cons r rs ih =>
    intro b
    by_cases hg : g b r = true
    · obtain ⟨t, ht⟩ := ih (builtAfter e b r)
      refine ⟨e r ++ [r.name] ++ t, ?_⟩
      simp only [scanPass, hg, if_true]
      rw [ht]
      simp [builtAfter, List.append_assoc]
    · obtain ⟨t, ht⟩ := ih b
      refine ⟨t, ?_⟩
      simp only [scanPass, hg, if_false, Bool.false_eq_true, ht]

theorem scanPass_mem_of_mem {rs : List Repo} {b : List String} {x : String}
    (hx : x ∈ b) : x ∈ (scanPass e g rs b).1 := by
  obtain ⟨t, ht⟩ := scanPass_fst_eq_append e g rs b
  rw [ht]
  exact List.mem_append_left _ hx

theorem scanPass_fst_sources :
    ∀ (rs : List Repo) (b : List String) (x : String),
      x ∈ (scanPass e g rs b).1 →
        x ∈ b ∨ ∃ r ∈ rs, x ∈ e r ∨ x = r.name := by
  intro rs
  induction rs with
  | nil => intro b x hx; exact Or.inl hx
  | cons r rs ih =>
    intro b x hx
    by_cases hg : g b r = true
    · simp only [scanPass, hg, if_true] at hx
      rcases ih _ _ hx with hb | ⟨r', hr', h'⟩
      · simp only [builtAfter, List.append_assoc, List.mem_append,
          List.mem_singleton] at hb
        rcases hb with hb | hb | hb
        · exact Or.inl hb
        · exact Or.inr ⟨r, List.mem_cons_self r rs, Or.inl hb⟩
        · exact Or.inr ⟨r, List.mem_cons_self r rs, Or.inr hb⟩
      · exact Or.inr ⟨r', List.mem_cons_of_mem r hr', h'⟩
    · simp only [scanPass, hg, if_false, Bool.false_eq_true] at hx
      rcases ih _ _ hx with hb | ⟨r', hr', h'⟩
      · exact Or.inl hb
      · exact Or.inr ⟨r', List.mem_cons_of_mem r hr', h'⟩

theorem scanPass_events :
    ∀ (rs : List Repo) (b : List String),
      ∀ ev ∈ (scanPass e g rs b).2,
        ev.repo ∈ rs ∧ g ev.builtBefore ev.repo = true := by
  intro rs
  induction rs with
  | nil => intro b ev hev; simp [scanPass] at hev
  | cons r rs ih =>
    intro b ev hev
    by_cases hg : g b r = true
    · simp only [scanPass, hg, if_true, List.mem_cons] at hev
      rcases hev with rfl | hev
      · exact ⟨List.mem_cons_self r rs, hg⟩
      · obtain ⟨h1, h2⟩ := ih _ ev hev
        exact ⟨List.mem_cons_of_mem r h1, h2⟩
    · simp only [scanPass, hg, if_false, Bool.false_eq_true] at hev
      obtain ⟨h1, h2⟩ := ih _ ev hev
      exact ⟨List.mem_cons_of_mem r h1, h2⟩

theorem readyB_mono {b b' : List String} (hsub : ∀ x ∈ b, x ∈ b') {r : Repo}
    (h : readyB b r = true) : readyB b' r = true := by
  simp only [readyB, List.all_eq_true] at h ⊢
  intro d hd
  have := h d hd
  simp only [List.contains_iff_exists_mem_beq] at this ⊢
  obtain ⟨x, hx, hbeq⟩ := this
  exact ⟨x, hsub x hx, hbeq⟩

theorem scanPass_builds_ready :
    ∀ (rs : List Repo) (b : List String) (r : Repo), r ∈ rs →
      readyB b r = true → r.name ∈ (scanPass e readyB rs b).1 := by
  intro rs
  induction rs with
  | nil => intro b r hr; exact absurd hr (List.not_mem_nil r)
  | cons x rs ih =>
    intro b r hr hready
    rcases List.mem_cons.mp hr with rfl | hr'
    · simp only [scanPass, hready, if_true]
      exact scanPass_mem_of_mem (by simp [builtAfter])
    · by_cases hg : readyB b x = true
      · simp only [scanPass, hg, if_true]
        exact ih _ r hr' (readyB_mono (fun y hy => by simp [builtAfter, hy])
          hready)
      · simp only [scanPass, hg, if_false, Bool.false_eq_true]
        exact ih _ r hr' hready

theorem scanPass_stuck (d rName : String) :
    ∀ (rs : List Repo) (b : List String),
      d ∉ b → rName ∉ b →
      (∀ x ∈ rs, d ∉ e x ∧ rName ∉ e x ∧ x.name ≠ d) →
      (∀ x ∈ rs, ∀ b' : List String, d ∉ b' → x.name = rName →
        g b' x = false) →
      d ∉ (scanPass e g rs b).1 ∧ rName ∉ (scanPass e g rs b).1 := by
  intro rs
  induction rs with
  | nil => intro b hd hn _ _; exact ⟨hd, hn⟩
  | cons x rs ih =>
    intro b hd hn hel hgu
    by_cases hg : g b x = true
    · have hxname : x.name ≠ rName := by
        intro hEq
        rw [hgu x (List.mem_cons_self x rs) b hd hEq] at hg
        exact Bool.false_ne_true hg
      obtain ⟨h1, h2, h3⟩ := hel x (List.mem_cons_self x rs)
      simp only [scanPass, hg, if_true]
      refine ih (builtAfter e b x) ?_ ?_
        (fun y hy => hel y (List.mem_cons_of_mem x hy))
        (fun y hy => hgu y (List.mem_cons_of_mem x hy))
      · simp only [builtAfter, List.append_assoc, List.mem_append,
          List.mem_singleton]
        rintro (h | h | h)
        · exact hd h
        · exact h1 h
        · exact h3 h.symm
      · simp only [builtAfter, List.append_assoc, List.mem_append,
          List.mem_singleton]
        rintro (h | h | h)
        · exact hn h
        · exact h2 h
        · exact hxname h.symm
    · simp only [scanPass, hg, if_false, Bool.false_eq_true]
      exact ih b hd hn (fun y hy => hel y (List.mem_cons_of_mem x hy))
        (fun y hy => hgu y (List.mem_cons_of_mem x hy))

theorem list_exists_min {α : Type} (f : α → Nat) :
    ∀ (l : List α), l ≠ [] → ∃ m ∈ l, ∀ x ∈ l, f m ≤ f x := by
  intro l
  induction l with
  | nil => intro h; exact absurd rfl h
  | cons a l ih =>
    intro _
    cases l with
    | nil => exact ⟨a, by simp, by simp⟩
    | cons c t =>
      obtain ⟨m, hm, hmin⟩ := ih (by simp)
      by_cases hle : f a ≤ f m
      · refine ⟨a, by simp, ?_⟩
        intro x hx
        rcases List.mem_cons.mp hx with rfl | hx'
        · exact Nat.le_refl _
        · exact Nat.le_trans hle (hmin x hx')
      · refine ⟨m, List.mem_cons_of_mem a hm, ?_⟩
        intro x hx
        rcases List.mem_cons.mp hx with rfl | hx'
        · exact Nat.le_of_lt (Nat.lt_of_not_le hle)
        · exact hmin x hx'

theorem length_filter_lt_of_mem_false {α : Type} (p : α → Bool) :
    ∀ (l : List α) (a : α), a ∈ l → p a = false →
      (l.filter p).length < l.length := by
  intro l
  induction l with
  | nil => intro a ha _; exact absurd ha (List.not_mem_nil a)
  | cons x xs ih =>
    intro a ha hpa
    have hle := List.length_filter_le p xs
    rcases List.mem_cons.mp ha with rfl | ha'
    · simp only [List.filter_cons, hpa, if_false, Bool.false_eq_true,
        List.length_cons]
      omega
    · have hlt := ih a ha' hpa
      cases hpx : p x
      · simp only [List.filter_cons, hpx, if_false, Bool.false_eq_true,
          List.length_cons]
        omega
      · simp only [List.filter_cons, hpx, if_true, List.length_cons]
        omega

theorem whileLoopL_stuck {e : Repo → List String} (r : Repo) (d : String) :
    ∀ (fuel : Nat) (rs : List Repo) (b : List String),
      r ∈ rs → d ∉ b → r.name ∉ b →
      (∀ x ∈ rs, d ∉ e x ∧ r.name ∉ e x ∧ x.name ≠ d ∧
        (x.name = r.name → d ∈ depNamesOf x)) →
      whileLoopL e fuel rs b = .fuelOut := by
  intro fuel
  induction fuel with
  | zero =>
    intro rs b hr _ _ _
    cases rs with
    | nil => exact absurd hr (List.not_mem_nil r)
    | cons x xs => rfl
  | succ n ih =>
    intro rs b hr hdb hnb hall
    cases rs with
    | nil => exact absurd hr (List.not_mem_nil r)
    | cons x xs =>
      have hguard : ∀ y ∈ x :: xs, ∀ b' : List String, d ∉ b' →
          y.name = r.name → readyB b' y = false := by
        intro y hy b' hdb' hyname
        cases hready : readyB b' y with
        | false => rfl
        | true =>
          exfalso
          simp only [readyB, List.all_eq_true] at hready
          have := hready d ((hall y hy).2.2.2 hyname)
          simp only [List.contains_iff_exists_mem_beq] at this
          obtain ⟨z, hz, hbeq⟩ := this
          exact hdb' ((eq_of_beq hbeq) ▸ hz)
      have hstuck := scanPass_stuck (e := e) (g := readyB) d r.name (x :: xs)
        b hdb hnb
        (fun y hy => ⟨(hall y hy).1, (hall y hy).2.1, (hall y hy).2.2.1⟩)
        hguard
      have hrmem : r ∈ (x :: xs).filter
          (fun z => !((scanPass e readyB (x :: xs) b).1.contains z.name)) := by
        rw [List.mem_filter]
        refine ⟨hr, ?_⟩
        simp only [Bool.not_eq_eq_eq_not, Bool.not_true]
        simpa using hstuck.2
      simp only [whileLoopL]
      rw [ih _ _ hrmem hstuck.1 hstuck.2
        (fun y hy => hall y (List.mem_filter.mp hy).1)]

theorem whileLoopL_complete {e : Repo → List String} (W : List Repo)
    (rank : String → Nat)
    (hres : ∀ x ∈ W, ∀ dn ∈ depNamesOf x, ∃ y ∈ W, y.name = dn)
    (hrank : ∀ x ∈ W, ∀ dn ∈ depNamesOf x, rank dn < rank x.name) :
    ∀ (n : Nat) (rs : List Repo) (b : List String),
      rs.length ≤ n →
      (∀ x ∈ rs, x ∈ W) →
      (∀ y ∈ W, y.name ∉ b → y ∈ rs) →
      ∃ b' evs, whileLoopL e n rs b = .done b' evs ∧
        (∀ x ∈ b, x ∈ b') ∧
        (∀ y ∈ W, y.name ∈ b') ∧
        (∀ ev ∈ evs, readyB ev.builtBefore ev.repo = true) := by
  intro n
  induction n with
  | zero =>
    intro rs b hlen _ hI2
    have hrs : rs = [] := List.eq_nil_of_length_eq_zero (Nat.le_zero.mp hlen)
    subst hrs
    refine ⟨b, [], rfl, fun x hx => hx, ?_, by simp⟩
    intro y hy
    by_contra hnb
    exact absurd (hI2 y hy hnb) (List.not_mem_nil y)
  | succ n ih =>
    intro rs b hlen hWsub hI2
    cases rs with
    | nil =>
      refine ⟨b, [], rfl, fun x hx => hx, ?_, by simp⟩
      intro y hy
      by_contra hnb
      exact absurd (hI2 y hy hnb) (List.not_mem_nil y)
    | cons x xs =>
      obtain ⟨m, hm, hmin⟩ :=
        list_exists_min (fun z : Repo => rank z.name) (x :: xs) (by simp)
      have hmready : readyB b m = true := by
        simp only [readyB, List.all_eq_true]
        intro dn hdn
        by_contra hnc
        have hdnb : dn ∉ b := by
          intro hmem
          apply hnc
          simp only [List.contains_iff_exists_mem_beq]
          exact ⟨dn, hmem, by simp⟩
        obtain ⟨y, hyW, hyname⟩ := hres m (hWsub m hm) dn hdn
        have hyrs : y ∈ x :: xs := hI2 y hyW (by rw [hyname]; exact hdnb)
        have h1 : rank m.name ≤ rank y.name := hmin y hyrs
        have h2 : rank dn < rank m.name := hrank m (hWsub m hm) dn hdn
        rw [hyname] at h1
        omega
      have hmbuilt : m.name ∈ (scanPass e readyB (x :: xs) b).1 :=
        scanPass_builds_ready _ _ m hm hmready
      obtain ⟨t, hext⟩ := scanPass_fst_eq_append e readyB (x :: xs) b
      have hlen' : ((x :: xs).filter
          (fun z => !((scanPass e readyB (x :: xs) b).1.contains z.name))).length
          ≤ n := by
        have := length_filter_lt_of_mem_false
          (fun z => !((scanPass e readyB (x :: xs) b).1.contains z.name))
          (x :: xs) m hm (by
            simp only [Bool.not_eq_eq_eq_not, Bool.not_false]
            simpa using hmbuilt)
        omega
      have hWsub' : ∀ z ∈ (x :: xs).filter
          (fun z => !((scanPass e readyB (x :: xs) b).1.contains z.name)),
          z ∈ W := fun z hz => hWsub z (List.mem_filter.mp hz).1
      have hI2' : ∀ y ∈ W,
          y.name ∉ (scanPass e readyB (x :: xs) b).1 →
            y ∈ (x :: xs).filter
              (fun z => !((scanPass e readyB (x :: xs) b).1.contains z.name)) := by
        intro y hyW hyn
        have hynb : y.name ∉ b := fun hmem =>
          hyn (by rw [hext]; exact List.mem_append_left _ hmem)
        rw [List.mem_filter]
        refine ⟨hI2 y hyW hynb, ?_⟩
        simp only [Bool.not_eq_eq_eq_not, Bool.not_true]
        simpa using hyn
      obtain ⟨b', evs', heq, hsub, hallW, hevs'⟩ := ih _ _ hlen' hWsub' hI2'
      refine ⟨b', (scanPass e readyB (x :: xs) b).2 ++ evs', ?_, ?_, hallW, ?_⟩
      · simp only [whileLoopL]
        rw [heq]
      · intro z hz
        exact hsub z (by rw [hext]; exact List.mem_append_left _ hz)
      · intro ev hev
        rcases List.mem_append.mp hev with h | h
        · exact (scanPass_events _ _ ev h).2
        · exact hevs' ev h

theorem depNamesOf_eq_nil_of_isNone {r : Repo} (h : r.deps.isNone = true) :
    depNamesOf r = [] := by
  rcases hc : r.deps with _ | l
  · simp [depNamesOf, hc]
  · rw [hc] at h; simp at h

/-- C1: for a working set whose dependency graph is acyclic (witnessed by a
rank function decreasing along `deps`) and whose every `repo_name` resolves
to a descriptor of the working set, the resolution loop of
`build_known_good` terminates with every descriptor's name in the built
list, and at the moment `build_repo` is invoked for a descriptor, every
`repo_name` in its `deps` is already a member of the built list. -/
theorem c1_acyclic_resolution_order (e : Repo → List String)
    (repos : List Repo) (prev : List String) (rank : String → Nat)
    (hresolve : ∀ x ∈ repos, ∀ dn ∈ depNamesOf x, ∃ y ∈ repos, y.name = dn)
    (hrank : ∀ x ∈ repos, ∀ dn ∈ depNamesOf x, rank dn < rank x.name) :
    ∃ built evs,
      buildKnownGoodLoop e repos.length repos prev = .done built evs ∧
      (∀ x ∈ repos, x.name ∈ built) ∧
      (∀ ev ∈ evs, ∀ dn ∈ depNamesOf ev.repo, dn ∈ ev.builtBefore) := by
  obtain ⟨t1, ht1⟩ := scanPass_fst_eq_append e (fun _ z => z.deps.isNone)
    (repos.filter (fun z => !(prev.contains z.name))) prev
  have hlen : (((repos.filter (fun z => !(prev.contains z.name))).filter
      (fun z => !((scanPass e (fun _ z => z.deps.isNone)
        (repos.filter (fun z => !(prev.contains z.name)))
        prev).1.contains z.name))).length) ≤ repos.length :=
    Nat.le_trans (List.length_filter_le _ _) (List.length_filter_le _ _)
  have hWsub : ∀ x ∈ (repos.filter (fun z => !(prev.contains z.name))).filter
      (fun z => !((scanPass e (fun _ z => z.deps.isNone)
        (repos.filter (fun z => !(prev.contains z.name)))
        prev).1.contains z.name)), x ∈ repos :=
    fun x hx => (List.mem_filter.mp (List.mem_filter.mp hx).1).1
  have hI2 : ∀ y ∈ repos,
      y.name ∉ (scanPass e (fun _ z => z.deps.isNone)
        (repos.filter (fun z => !(prev.contains z.name))) prev).1 →
      y ∈ (repos.filter (fun z => !(prev.contains z.name))).filter
        (fun z => !((scanPass e (fun _ z => z.deps.isNone)
          (repos.filter (fun z => !(prev.contains z.name)))
          prev).1.contains z.name)) := by
    intro y hy hyn
    have hyp : y.name ∉ prev := fun hm =>
      hyn (by rw [ht1]; exact List.mem_append_left _ hm)
    have hy1 : y ∈ repos.filter (fun z => !(prev.contains z.name)) := by
      rw [List.mem_filter]
      exact ⟨hy, by simp [hyp]⟩
    rw [List.mem_filter]
    refine ⟨hy1, ?_⟩
    simp only [Bool.not_eq_eq_eq_not, Bool.not_true]
    simpa using hyn
  obtain ⟨b', evs', heq, hsub, hallW, hevs⟩ :=
    whileLoopL_complete (e := e) repos rank hresolve hrank repos.length _ _
      hlen hWsub hI2
  refine ⟨b', (scanPass e (fun _ z => z.deps.isNone)
    (repos.filter (fun z => !(prev.contains z.name))) prev).2 ++ evs',
    ?_, hallW, ?_⟩
  · simp only [buildKnownGoodLoop]
    rw [heq]
  · intro ev hev
    rcases List.mem_append.mp hev with h | h
    · have hN := (scanPass_events _ _ ev h).2
      rw [depNamesOf_eq_nil_of_isNone hN]
      intro dn hdn
      exact absurd hdn (List.not_mem_nil dn)
    · have hready := hevs ev h
      simp only [readyB, List.all_eq_true] at hready
      intro dn hdn
      have := hready dn hdn
      simp only [List.contains_iff_exists_mem_beq] at this
      obtain ⟨z, hz, hbeq⟩ := this
      exact (eq_of_beq hbeq) ▸ hz

/-- Witness for C1: the two-descriptor manifest where `B` depends on `A`. -/
theorem c1_acyclic_resolution_order_witness :
    ∃ built evs,
      buildKnownGoodLoop (fun _ => []) 2
        [{ name := "B", deps := some [⟨"A", "VA"⟩] }, { name := "A" }] []
        = .done built evs ∧
      (∀ x ∈ ([{ name := "B", deps := some [⟨"A", "VA"⟩] },
          { name := "A" }] : List Repo), x.name ∈ built) ∧
      (∀ ev ∈ evs, ∀ dn ∈ depNamesOf ev.repo, dn ∈ ev.builtBefore) :=
  c1_acyclic_resolution_order (fun _ => [])
    [{ name := "B", deps := some [⟨"A", "VA"⟩] }, { name := "A" }] []
    (fun n => if n = "A" then 0 else 1) (by decide) (by decide)

/-- C2: if a descriptor of the working set has a `deps` entry whose
`repo_name` can never appear in the built list — it matches no working-set
descriptor's name, it is not among the previously built names, and no
nested build supplies it — then the while loop of `build_known_good` never
terminates: for every amount of fuel the loop is still running.  (Names of
the working set are assumed distinct, per the manifest's `name` being a
unique identifier.) -/
theorem c2_unsatisfied_dep_nontermination (e : Repo → List String)
    (repos : List Repo) (prev : List String) (r : Repo) (d : String)
    (hr : r ∈ repos) (hd : d ∈ depNamesOf r)
    (hdprev : d ∉ prev)
    (hdW : ∀ x ∈ repos, x.name ≠ d)
    (hde : ∀ x ∈ repos, d ∉ e x)
    (hrne : ∀ x ∈ repos, r.name ∉ e x)
    (hrprev : r.name ∉ prev)
    (hnodup : (repos.map Repo.name).Nodup) :
    ∀ fuel, buildKnownGoodLoop e fuel repos prev = .fuelOut := by
  intro fuel
  have hrdeps : r.deps.isNone = false := by
    rcases hcase : r.deps with _ | l
    · rw [depNamesOf, hcase] at hd
      exact absurd hd (List.not_mem_nil d)
    · rfl
  have huniq : ∀ x ∈ repos, x.name = r.name → x = r := fun x hx hxy =>
    List.inj_on_of_nodup_map hnodup hx hr hxy
  have hr1 : r ∈ repos.filter (fun z => !(prev.contains z.name)) := by
    rw [List.mem_filter]
    exact ⟨hr, by simp [hrprev]⟩
  have hsub1 : ∀ x ∈ repos.filter (fun z => !(prev.contains z.name)),
      x ∈ repos := fun x hx => (List.mem_filter.mp hx).1
  have hstuck1 := scanPass_stuck (e := e) (g := fun _ z => z.deps.isNone)
    d r.name (repos.filter (fun z => !(prev.contains z.name))) prev
    hdprev hrprev
    (fun x hx => ⟨hde x (hsub1 x hx), hrne x (hsub1 x hx),
      hdW x (hsub1 x hx)⟩)
    (fun x hx _ _ hxname => by
      rw [huniq x (hsub1 x hx) hxname]
      exact hrdeps)
  have hr2 : r ∈ (repos.filter (fun z => !(prev.contains z.name))).filter
      (fun z => !((scanPass e (fun _ z => z.deps.isNone)
        (repos.filter (fun z => !(prev.contains z.name)))
        prev).1.contains z.name)) := by
    rw [List.mem_filter]
    refine ⟨hr1, ?_⟩
    simp only [Bool.not_eq_eq_eq_not, Bool.not_true]
    simpa using hstuck1.2
  have hsub2 : ∀ x ∈ (repos.filter (fun z => !(prev.contains z.name))).filter
      (fun z => !((scanPass e (fun _ z => z.deps.isNone)
        (repos.filter (fun z => !(prev.contains z.name)))
        prev).1.contains z.name)), x ∈ repos :=
    fun x hx => hsub1 x (List.mem_filter.mp hx).1
  have hloop := whileLoopL_stuck (e := e) r d fuel _ _ hr2 hstuck1.1 hstuck1.2
    (fun x hx => ⟨hde x (hsub2 x hx), hrne x (hsub2 x hx),
      hdW x (hsub2 x hx),
      fun hxname => by rw [huniq x (hsub2 x hx) hxname]; exact hd⟩)
  simp only [buildKnownGoodLoop]
  rw [hloop]

/-- Witness for C2: a one-descriptor manifest depending on the absent
name `Z` runs out of any amount of fuel (here 3). -/
theorem c2_unsatisfied_dep_nontermination_witness :
    buildKnownGoodLoop (fun _ => []) 3
      [{ name := "C", deps := some [⟨"Z", "VZ"⟩] }] [] = .fuelOut :=
  c2_unsatisfied_dep_nontermination (fun _ => [])
    [{ name := "C", deps := some [⟨"Z", "VZ"⟩] }] []
    { name := "C", deps := some [⟨"Z", "VZ"⟩] } "Z"
    (by decide) (by decide) (by decide) (by decide) (by decide) (by decide)
    (by decide) (by decide) 3

theorem whileLoopL_done_sources {e : Repo → List String} :
    ∀ (fuel : Nat) (rs : List Repo) (b₀ b : List String)
      (evs : List BuildEvent),
      whileLoopL e fuel rs b₀ = .done b evs →
      ∀ x ∈ b, x ∈ b₀ ∨ ∃ rr ∈ rs, x ∈ e rr ∨ x = rr.name := by
  intro fuel
  induction fuel with
  | zero =>
    intro rs b₀ b evs h x hx
    cases rs with
    | nil =>
      injection h with h1 _
      exact Or.inl (h1 ▸ hx)
    | cons y ys => simp [whileLoopL] at h
  | succ n ih =>
    intro rs b₀ b evs h x hx
    cases rs with
    | nil =>
      injection h with h1 _
      exact Or.inl (h1 ▸ hx)
    | cons y ys =>
      simp only [whileLoopL] at h
      cases hrec : whileLoopL e n
          ((y :: ys).filter
            (fun z => !((scanPass e readyB (y :: ys) b₀).1.contains z.name)))
          (scanPass e readyB (y :: ys) b₀).1 with
      | fuelOut => rw [hrec] at h; exact absurd h (by simp)
      | done b2 evs2 =>
        rw [hrec] at h
        injection h with h1 _
        subst h1
        rcases ih _ _ _ _ hrec x hx with hx0 | ⟨rr, hrr, hc⟩
        · rcases scanPass_fst_sources _ _ x hx0 with hb | ⟨rr, hrr, hc⟩
          · exact Or.inl hb
          · exact Or.inr ⟨rr, hrr, hc⟩
        · exact Or.inr ⟨rr, (List.mem_filter.mp hrr).1, hc⟩

theorem buildKnownGoodLoop_done_sources {e : Repo → List String}
    (fuel : Nat) (repos : List Repo) (prev b : List String)
    (evs : List BuildEvent)
    (h : buildKnownGoodLoop e fuel repos prev = .done b evs) :
    ∀ x ∈ b, x ∈ prev ∨ ∃ rr ∈ repos, x ∈ e rr ∨ x = rr.name := by
  intro x hx
  simp only [buildKnownGoodLoop] at h
  cases hrec : whileLoopL e fuel
      ((repos.filter (fun z => !(prev.contains z.name))).filter
        (fun z => !((scanPass e (fun _ z => z.deps.isNone)
          (repos.filter (fun z => !(prev.contains z.name)))
          prev).1.contains z.name)))
      (scanPass e (fun _ z => z.deps.isNone)
        (repos.filter (fun z => !(prev.contains z.name))) prev).1 with
  | fuelOut => rw [hrec] at h; exact absurd h (by simp)
  | done b2 evs2 =>
    rw [hrec] at h
    injection h with h1 _
    subst h1
    rcases whileLoopL_done_sources _ _ _ _ _ hrec x hx with hx0 | ⟨rr, hrr, hc⟩
    · rcases scanPass_fst_sources _ _ x hx0 with hb | ⟨rr, hrr, hc⟩
      · exact Or.inl hb
      · exact Or.inr ⟨rr, (List.mem_filter.mp hrr).1, hc⟩
    · exact Or.inr ⟨rr,
        (List.mem_filter.mp (List.mem_filter.mp hrr).1).1, hc⟩

theorem mem_selectRepo {y x : Repo} (h : y ∈ selectRepo x) : y = x := by
  rw [selectRepo] at h
  rcases hc : x.build_platforms with _ | ps
  · rw [hc] at h
    by_cases hn : (x.name == "VulkanTools") = true
    · rw [if_pos hn] at h
      exact absurd h (List.not_mem_nil y)
    · rw [if_neg hn] at h
      exact List.mem_singleton.mp h
  · rw [hc] at h
    obtain ⟨p, _, hp⟩ := List.mem_map.mp h
    exact hp.symm

/-- C10 (amended): `build_known_good` excludes from the working set every
descriptor whose `build_platforms` field is present but lists no `linux`
entry, and every descriptor named `VulkanTools` that has no
`build_platforms` field; such an excluded descriptor is not in the working
set, and its name never enters the built list (provided it was not
previously built, no other working-set descriptor carries the same name,
and no nested build supplies it).  The unamended claim — that a descriptor
named `VulkanTools` is always excluded — is refuted by
`c10_manifest_filter_counterexample`. -/
theorem c10_manifest_filter (raw : List Repo) (r : Repo) (_hr : r ∈ raw)
    (hexcl : (∃ ps, r.build_platforms = some ps ∧ "linux" ∉ ps) ∨
      (r.name = "VulkanTools" ∧ r.build_platforms = none)) :
    r ∉ selectRepos raw ∧
    ∀ (e : Repo → List String) (fuel : Nat) (prev b : List String)
      (evs : List BuildEvent),
      buildKnownGoodLoop e fuel (selectRepos raw) prev = .done b evs →
      r.name ∉ prev →
      (∀ x ∈ selectRepos raw, x.name ≠ r.name) →
      (∀ x ∈ selectRepos raw, r.name ∉ e x) →
      r.name ∉ b := by
  have hsel : selectRepo r = [] := by
    rcases hexcl with ⟨ps, hps, hlin⟩ | ⟨hname, hbp⟩
    · have hfil : ps.filter (fun p => p == "linux") = [] := by
        rw [List.filter_eq_nil_iff]
        intro a ha
        simp only [beq_iff_eq]
        intro hEq
        exact hlin (hEq ▸ ha)
      simp [selectRepo, hps, hfil]
    · rw [selectRepo, hbp, if_pos (by simp [hname])]
  constructor
  · intro hmem
    rw [selectRepos] at hmem
    obtain ⟨l, hl, hrl⟩ := List.mem_flatten.mp hmem
    obtain ⟨x, _, hx⟩ := List.mem_map.mp hl
    have : r = x := mem_selectRepo (hx ▸ hrl)
    rw [← this] at hx
    rw [hsel] at hx
    exact absurd (hx ▸ hrl) (List.not_mem_nil r)
  · intro e fuel prev b evs hdone hprev hnames hextra hmem
    rcases buildKnownGoodLoop_done_sources fuel _ prev b evs hdone r.name hmem
      with hp | ⟨rr, hrr, hc | hc⟩
    · exact hprev hp
    · exact hextra rr hrr hc
    · exact hnames rr hrr hc.symm

/-- Counterexample to C10 as stated: a descriptor named `VulkanTools` whose
`build_platforms` lists `linux` is kept in the working set and its name is
appended to the built list. -/
theorem c10_manifest_filter_counterexample :
    selectRepos
        [{ name := "VulkanTools", build_platforms := some ["linux"] }]
      = [{ name := "VulkanTools", build_platforms := some ["linux"] }] ∧
    buildKnownGoodLoop (fun _ => []) 1
      (selectRepos
        [{ name := "VulkanTools", build_platforms := some ["linux"] }]) []
      = .done ["VulkanTools"]
        [⟨{ name := "VulkanTools", build_platforms := some ["linux"] }, []⟩]
    := by
  exact ⟨rfl, rfl⟩

/-- Witness for the amended C10: a descriptor with `build_platforms`
lacking `linux` is excluded and never built. -/
theorem c10_manifest_filter_witness :
    ({ name := "X", build_platforms := some ["windows"] } : Repo)
      ∉ selectRepos [{ name := "X", build_platforms := some ["windows"] },
        { name := "A" }] ∧
    "X" ∉ ["A"] := by
  have h := c10_manifest_filter
    [{ name := "X", build_platforms := some ["windows"] }, { name := "A" }]
    { name := "X", build_platforms := some ["windows"] }
    (by decide) (Or.inl ⟨["windows"], rfl, by decide⟩)
  exact ⟨h.1, h.2 (fun _ => []) 1 [] ["A"]
    [⟨{ name := "A" }, []⟩] rfl (by decide) (by decide) (by decide)⟩

end LoopLemmas

/-! ### The recursive build driver (claim C6) -/

/-- The external context of one driver run: the nested manifests on disk
(`sub_dir` maps to the `repos` list of `sub_dir/scripts/known_good.json`,
`none` when that file does not exist), and the exit status of each
repository's external commands — `okPre` covers `git clone`,
`git checkout --force` and the `prebuild` commands, `okPost` the cmake
configure and install steps. -/
structure Env where
  manifests : String → Option (List Repo)
  okPre : Repo → Bool
  okPost : Repo → Bool

/-- Result of a driver fragment: normal completion with the final `built`
list and the repositories completed (in completion order); `exited` models
`sys.exit(1)` after a failing external command; `fuelOut` means only that
the step budget ran out. -/
inductive RunResult where
  | done (built : List String) (completed : List Repo)
  | exited
  | fuelOut
deriving DecidableEq, Repr

/-- The five mutually recursive fragments of the driver:
`.repo r` is `build_repo(args, r, built)` (lines 73-132); `.phase1 rs` is
the `for repo in repos: if 'deps' not in repo` pass (lines 43-45);
`.pass rs` is the inner `for repo in repos` scan of the while loop
(lines 55-61); `.loop rs` is the `while repos:` loop (lines 54-64);
`.kg sub_dir` is `build_known_good(args, sub_dir, built)` (lines 13-69). -/
inductive Call where
  | repo (r : Repo)
  | phase1 (rs : List Repo)
  | pass (rs : List Repo)
  | loop (rs : List Repo)
  | kg (sub_dir : String)

/-- A fuelled interpreter for the five fragments; every recursive step
consumes one unit of fuel.  A `done` or `exited` result is actual script
behaviour; `fuelOut` only means more fuel is needed.  In `.repo`, the
recursive `build_known_good(args, repo.sub_dir, built)` runs after the
clone/checkout/prebuild commands and before configure/install, and
`built.append(build_repo(...))` appends the name only after the whole
sequence returned. -/
def runR (E : Env) : Nat → Call → List String → RunResult
  | 0, _, _ => .fuelOut
  | fuel + 1, .repo r, built =>
    if E.okPre r then
      match runR E fuel (.kg r.sub_dir) built with
      | .done b c =>
        if E.okPost r then .done (b ++ [r.name]) (c ++ [r]) else .exited
      | other => other
    else .exited
  | _ + 1, .phase1 [], built => .done built []
  | fuel + 1, .phase1 (r :: rs), built =>
    if r.deps.isNone then
      match runR E fuel (.repo r) built with
      | .done b c =>
        match runR E fuel (.phase1 rs) b with
        | .done b' c' => .done b' (c ++ c')
        | other => other
      | other => other
    else runR E fuel (.phase1 rs) built
  | _ + 1, .pass [], built => .done built []
  | fuel + 1, .pass (r :: rs), built =>
    if readyB built r then
      match runR E fuel (.repo r) built with
      | .done b c =>
        match runR E fuel (.pass rs) b with
        | .done b' c' => .done b' (c ++ c')
        | other => other
      | other => other
    else runR E fuel (.pass rs) built
  | _ + 1, .loop [], built => .done built []
  | fuel + 1, .loop (r :: rs), built =>
    match runR E fuel (.pass (r :: rs)) built with
    | .done b c =>
      match runR E fuel (.loop ((r :: rs).filter
          (fun x => !(b.contains x.name)))) b with
      | .done b' c' => .done b' (c ++ c')
      | other => other
    | other => other
  | fuel + 1, .kg sub_dir, built =>
    match E.manifests sub_dir with
    | none => .done built []
    | some raw =>
      match runR E fuel (.phase1 ((selectRepos raw).filter
          (fun x => !(built.contains x.name)))) built with
      | .done b c =>
        match runR E fuel (.loop (((selectRepos raw).filter
            (fun x => !(built.contains x.name))).filter
            (fun x => !(b.contains x.name)))) b with
        | .done b' c' => .done b' (c ++ c')
        | other => other
      | other => other

/-- The top-level call of `build` (line 160):
`build_known_good(args, 'VulkanTools')`, the built list starting as the
empty default `previously_built = []`. -/
def buildDriver (E : Env) (fuel : Nat) : RunResult :=
  runR E fuel (.kg "VulkanTools") []

theorem mono_append {built b1 b2 : List String} {c1 c2 : List Repo}
    (h1 : b1 = built ++ c1.map Repo.name)
    (h2 : b2 = b1 ++ c2.map Repo.name) :
    b2 = built ++ (c1 ++ c2).map Repo.name := by
  subst h1
  subst h2
  simp [List.map_append, List.append_assoc]

/-- C6: throughout one run of the build driver the built list only grows:
whenever a driver fragment returns normally, its final built list is the
input built list followed by exactly the names of the repositories whose
full build-and-install sequence (clone, checkout, prebuild, nested
manifest, configure, install) completed, in completion order — no name is
ever removed — and every completed repository had all its external commands
return zero; the top-level invocation starts from the empty list, so its
final built list is exactly those names. -/
theorem c6_built_monotone (E : Env) :
    (∀ (fuel : Nat) (c : Call) (built b : List String) (comp : List Repo),
      runR E fuel c built = .done b comp →
      b = built ++ comp.map Repo.name ∧
      ∀ x ∈ comp, E.okPre x = true ∧ E.okPost x = true) ∧
    (∀ (fuel : Nat) (b : List String) (comp : List Repo),
      buildDriver E fuel = .done b comp →
      b = comp.map Repo.name ∧
      ∀ x ∈ comp, E.okPre x = true ∧ E.okPost x = true) := by
  have main : ∀ (fuel : Nat) (c : Call) (built b : List String)
      (comp : List Repo),
      runR E fuel c built = .done b comp →
      b = built ++ comp.map Repo.name ∧
      ∀ x ∈ comp, E.okPre x = true ∧ E.okPost x = true := by
    intro fuel
    induction fuel with
    | zero => intro c built b comp h; exact absurd h (by simp [runR])
    | succ n ih =>
      intro c built b comp h
      cases c with
      | repo r =>
        rw [runR] at h
        split at h
        · split at h
          · rename_i hpre b1 c1 heq1
            split at h
            · rename_i hpost
              injection h with hb hc
              subst hb
              subst hc
              obtain ⟨m1, o1⟩ := ih _ _ _ _ heq1
              constructor
              · rw [m1]
                simp [List.map_append, List.append_assoc]
              · intro x hx
                rcases List.mem_append.mp hx with hx | hx
                · exact o1 x hx
                · exact (List.mem_singleton.mp hx) ▸ ⟨by assumption, hpost⟩
            · exact absurd h (by simp)
          · rename_i other heq
            exact absurd h (fun hh => heq b comp hh)
        · exact absurd h (by simp)
      | phase1 rs =>
        cases rs with
        | nil =>
          rw [runR] at h
          injection h with hb hc
          subst hb
          subst hc
          exact ⟨by simp, by simp⟩
        | cons r rs =>
          rw [runR] at h
          split at h
          · split at h
            · rename_i hdep b1 c1 heq1
              split at h
              · rename_i b2 c2 heq2
                injection h with hb hc
                subst hb
                subst hc
                obtain ⟨m1, o1⟩ := ih _ _ _ _ heq1
                obtain ⟨m2, o2⟩ := ih _ _ _ _ heq2
                refine ⟨mono_append m1 m2, ?_⟩
                intro x hx
                rcases List.mem_append.mp hx with hx | hx
                · exact o1 x hx
                · exact o2 x hx
              · rename_i other heq
                exact absurd h (fun hh => heq b comp hh)
            · rename_i other heq
              exact absurd h (fun hh => heq b comp hh)
          · exact ih _ _ _ _ h
      | pass rs =>
        cases rs with
        | nil =>
          rw [runR] at h
          injection h with hb hc
          subst hb
          subst hc
          exact ⟨by simp, by simp⟩
        | cons r rs =>
          rw [runR] at h
          split at h
          · split at h
            · rename_i hrdy b1 c1 heq1
              split at h
              · rename_i b2 c2 heq2
                injection h with hb hc
                subst hb
                subst hc
                obtain ⟨m1, o1⟩ := ih _ _ _ _ heq1
                obtain ⟨m2, o2⟩ := ih _ _ _ _ heq2
                refine ⟨mono_append m1 m2, ?_⟩
                intro x hx
                rcases List.mem_append.mp hx with hx | hx
                · exact o1 x hx
                · exact o2 x hx
              · rename_i other heq
                exact absurd h (fun hh => heq b comp hh)
            · rename_i other heq
              exact absurd h (fun hh => heq b comp hh)
          · exact ih _ _ _ _ h
      | loop rs =>
        cases rs with
        | nil =>
          rw [runR] at h
          injection h with hb hc
          subst hb
          subst hc
          exact ⟨by simp, by simp⟩
        | cons r rs =>
          rw [runR] at h
          split at h
          · rename_i b1 c1 heq1
            split at h
            · rename_i b2 c2 heq2
              injection h with hb hc
              subst hb
              subst hc
              obtain ⟨m1, o1⟩ := ih _ _ _ _ heq1
              obtain ⟨m2, o2⟩ := ih _ _ _ _ heq2
              refine ⟨mono_append m1 m2, ?_⟩
              intro x hx
              rcases List.mem_append.mp hx with hx | hx
              · exact o1 x hx
              · exact o2 x hx
            · rename_i other heq
              exact absurd h (fun hh => heq b comp hh)
          · rename_i other heq
            exact absurd h (fun hh => heq b comp hh)
      | kg sub_dir =>
        rw [runR] at h
        split at h
        · injection h with hb hc
          subst hb
          subst hc
          exact ⟨by simp, by simp⟩
        · split at h
          · rename_i raw hman b1 c1 heq1
            split at h
            · rename_i b2 c2 heq2
              injection h with hb hc
              subst hb
              subst hc
              obtain ⟨m1, o1⟩ := ih _ _ _ _ heq1
              obtain ⟨m2, o2⟩ := ih _ _ _ _ heq2
              refine ⟨mono_append m1 m2, ?_⟩
              intro x hx
              rcases List.mem_append.mp hx with hx | hx
              · exact o1 x hx
              · exact o2 x hx
            · rename_i other heq
              exact absurd h (fun hh => heq b comp hh)
          · rename_i other heq
            exact absurd h (fun hh => heq b comp hh)
  refine ⟨main, ?_⟩
  intro fuel b comp h
  obtain ⟨h1, h2⟩ := main fuel _ [] b comp h
  exact ⟨by simpa using h1, h2⟩

/-- Witness for C6: a driver run over one nested manifest containing the
single repository `A`, all commands succeeding. -/
theorem c6_built_monotone_witness :
    (["A"] : List String) = [] ++
      List.map Repo.name [({ name := "A" } : Repo)] ∧
    ∀ x ∈ [({ name := "A" } : Repo)],
      (⟨fun s => if s = "VulkanTools" then some [{ name := "A" }] else none,
        fun _ => true, fun _ => true⟩ : Env).okPre x = true ∧
      (⟨fun s => if s = "VulkanTools" then some [{ name := "A" }] else none,
        fun _ => true, fun _ => true⟩ : Env).okPost x = true := by
  have h := (c6_built_monotone
    ⟨fun s => if s = "VulkanTools" then some [{ name := "A" }] else none,
      fun _ => true, fun _ => true⟩).1 5 (.kg "VulkanTools") [] ["A"]
    [{ name := "A" }] (by rfl)
  exact h

/-! ### `merge_trees` (claim C3)

`merge_trees(src_dir, dst_dir)` (lines 134-140) iterates over
`os.listdir(src_dir)`; for a subdirectory it recurses into
`dst_dir/name`, otherwise it runs `shutil.copy(src_name, dst_dir)`.
`shutil.copy(f, dst)` copies into `dst/basename(f)` when `dst` is an
existing directory, and otherwise writes the file at path `dst` itself
(failing when `dst`'s parent directory does not exist).  Note the function
never creates directories in the destination.

The filesystem is a rooted tree of named entries; `listdir` order is the
stored entry order.  Since the two call sites merge disjoint trees and the
merge never modifies the source, the source subtree is passed by value. -/

/-- A filesystem object: a regular file with contents, or a directory with
named children. -/
inductive Entry where
  | file (content : String)
  | dir (entries : List (String × Entry))
deriving Repr

/-- Child of a directory entry list, by name. -/
def findEntry : List (String × Entry) → String → Option Entry
  | [], _ => none
  | (m, v) :: rest, n => if m = n then some v else findEntry rest n

/-- Path lookup from an entry. -/
def lookup : Entry → List String → Option Entry
  | v, [] => some v
  | .file _, _ :: _ => none
  | .dir es, n :: ns =>
    match findEntry es n with
    | some v => lookup v ns
    | none => none

/-- Replace (in place) or append a named child. -/
def setInDir (es : List (String × Entry)) (n : String) (v : Entry) :
    List (String × Entry) :=
  match es with
  | [] => [(n, v)]
  | (m, w) :: rest =>
    if m = n then (m, v) :: rest else (m, w) :: setInDir rest n v

/-- Write a regular file at a path: overwrites an existing file, fails when
the parent is missing or not a directory, or when the target is an existing
directory (`open(path, 'wb')` would raise). -/
def setFile : Entry → List String → String → Option Entry
  | .file _, _, _ => none
  | _, [], _ => none
  | .dir es, [n], c =>
    match findEntry es n with
    | some (.dir _) => none
    | _ => some (.dir (setInDir es n (.file c)))
  | .dir es, n :: ns@(_ :: _), c =>
    match findEntry es n with
    | some (.dir es') =>
      (setFile (.dir es') ns c).map (fun v => .dir (setInDir es n v))
    | _ => none

/-- `shutil.copy(src_name, dst)` for a source file with contents `c` and
basename `srcBase`: into `dst/srcBase` when `dst` is an existing directory,
else onto the path `dst` itself. -/
def shCopy (fs : Entry) (c : String) (srcBase : String)
    (dstPath : List String) : Option Entry :=
  match lookup fs dstPath with
  | some (.dir _) => setFile fs (dstPath ++ [srcBase]) c
  | _ => setFile fs dstPath c

mutual

/-- `merge_trees(src, dst)`: `src` is the source subtree (must be a
directory — `os.listdir` on a file raises), `dstPath` the destination
directory path inside `fs`. -/
def merge_trees : Entry → List String → Entry → Option Entry
  | .file _, _, _ => none
  | .dir es, dstPath, fs => mergeList es dstPath fs

/-- The `for name in os.listdir(src_dir)` loop of `merge_trees`. -/
def mergeList : List (String × Entry) → List String → Entry → Option Entry
  | [], _, fs => some fs
  | (n, .file c) :: rest, dstPath, fs =>
    match shCopy fs c n dstPath with
    | some fs' => mergeList rest dstPath fs'
    | none => none
  | (n, .dir es') :: rest, dstPath, fs =>
    match merge_trees (.dir es') (dstPath ++ [n]) fs with
    | some fs' => mergeList rest dstPath fs'
    | none => none

end

theorem findEntry_eq_none {es : List (String × Entry)} {n : String} :
    findEntry es n = none ↔ n ∉ es.map Prod.fst := by
  induction es with
  | nil => simp [findEntry]
  | cons p rest ih =>
    obtain ⟨m, w⟩ := p
    by_cases hm : m = n
    · subst hm
      simp [findEntry]
    · simp only [findEntry, if_neg hm, ih, List.map_cons, List.mem_cons]
      constructor
      · intro hn hor
        rcases hor with hor | hor
        · exact hm hor.symm
        · exact hn hor
      · intro hn hmem
        exact hn (Or.inr hmem)

theorem setInDir_not_found {es : List (String × Entry)} {n : String}
    (h : findEntry es n = none) (v : Entry) :
    setInDir es n v = es ++ [(n, v)] := by
  induction es with
  | nil => rfl
  | cons p rest ih =>
    obtain ⟨m, w⟩ := p
    rw [findEntry] at h
    by_cases hm : m = n
    · rw [if_pos hm] at h
      exact absurd h (by simp)
    · rw [if_neg hm] at h
      rw [setInDir, if_neg hm, ih h]
      rfl

theorem mergeList_flat_into_empty :
    ∀ (entries acc : List (String × Entry)),
      (∀ p ∈ entries, ∃ c, p.2 = Entry.file c) →
      (∀ p ∈ entries, p.1 ∉ acc.map Prod.fst) →
      (entries.map Prod.fst).Nodup →
      mergeList entries ["E"] (.dir [("E", .dir acc)])
        = some (.dir [("E", .dir (acc ++ entries))]) := by
  intro entries
  induction entries with
  | nil => intro acc _ _ _; simp [mergeList]
  | cons p rest ih =>
    intro acc hflat hdisj hnd
    obtain ⟨n, e⟩ := p
    obtain ⟨c, hc⟩ := hflat (n, e) (List.mem_cons_self _ _)
    simp only at hc
    subst hc
    have haccn : findEntry acc n = none :=
      findEntry_eq_none.mpr (hdisj (n, .file c) (List.mem_cons_self _ _))
    have hstep : shCopy (.dir [("E", .dir acc)]) c n ["E"]
        = some (.dir [("E", .dir (acc ++ [(n, .file c)]))]) := by
      simp [shCopy, lookup, findEntry, setFile, haccn,
        setInDir_not_found haccn, setInDir]
    rw [mergeList, hstep]
    rw [show (match some (Entry.dir [("E", Entry.dir (acc ++ [(n, Entry.file c)]))]) with
        | some fs' => mergeList rest ["E"] fs'
        | none => none)
        = mergeList rest ["E"]
            (Entry.dir [("E", Entry.dir (acc ++ [(n, Entry.file c)]))])
      from rfl]
    have hnd' : (rest.map Prod.fst).Nodup := (List.nodup_cons.mp hnd).2
    have hnhead : n ∉ rest.map Prod.fst := (List.nodup_cons.mp hnd).1
    have hrec := ih (acc ++ [(n, .file c)])
      (fun q hq => hflat q (List.mem_cons_of_mem _ hq))
      (fun q hq => by
        simp only [List.map_append, List.mem_append, List.map_cons,
          List.map_nil, List.mem_singleton]
        rintro (hmem | hmem)
        · exact hdisj q (List.mem_cons_of_mem _ hq) hmem
        · exact hnhead (hmem ▸ List.mem_map_of_mem Prod.fst hq))
      hnd'
    rw [hrec]
    simp [List.append_assoc]

/-- C3 (amended): for a source tree whose top-level entries are all regular
files with distinct names, and an empty destination directory `E`,
`merge_trees` leaves `E` containing an exact copy of the source: every file
at the same name with the same contents.  (With nested subdirectories the
claim fails — `merge_trees` never creates destination directories, see
`c3_merge_trees_empty_dest_counterexample`.) -/
theorem c3_merge_trees_flat_copy (entries : List (String × Entry))
    (hflat : ∀ p ∈ entries, ∃ c, p.2 = Entry.file c)
    (hnodup : (entries.map Prod.fst).Nodup) :
    merge_trees (.dir entries) ["E"] (.dir [("E", .dir [])])
      = some (.dir [("E", .dir entries)]) := by
  rw [merge_trees]
  have := mergeList_flat_into_empty entries [] hflat (by simp) hnodup
  simpa using this

/-- Witness for the amended C3: a two-file source tree is copied exactly
into the empty destination. -/
theorem c3_merge_trees_flat_copy_witness :
    merge_trees (.dir [("f", .file "x"), ("g", .file "y")]) ["E"]
      (.dir [("E", .dir [])])
      = some (.dir [("E", .dir [("f", .file "x"), ("g", .file "y")])]) :=
  c3_merge_trees_flat_copy [("f", .file "x"), ("g", .file "y")]
    (by intro p hp; fin_cases hp <;> exact ⟨_, rfl⟩) (by decide)

/-- Counterexample to C3 as stated: merging the source tree containing the
subdirectory `a` (holding file `f` with contents `x`) into the empty
directory `E` yields `E` containing a regular *file* named `a` — not a
subdirectory — because `merge_trees` recurses into the non-existent
`E/a` and `shutil.copy` then writes to the path `E/a` itself.  The result
is not a recursive copy of the source. -/
theorem c3_merge_trees_empty_dest_counterexample :
    merge_trees (.dir [("a", .dir [("f", .file "x")])]) ["E"]
        (.dir [("E", .dir [])])
      = some (.dir [("E", .dir [("a", .file "x")])]) ∧
    Entry.dir [("a", Entry.file "x")]
      ≠ Entry.dir [("a", Entry.dir [("f", Entry.file "x")])] := by
  constructor
  · simp [merge_trees, mergeList, shCopy, lookup, setFile, findEntry,
      setInDir]
  · intro hcontra
    injection hcontra with hes
    injection hes with hp _
    injection hp with _ hv
    exact Entry.noConfusion hv

end BuildSdk

/-! ## `test/create-report.py` (claims C5, C8, C9) -/

namespace Report

/-- One `Test` record of the CTest XML document: the `Status` attribute and
the three values extracted by `parse_test`. -/
structure TestRec where
  status : String
  name : String
  execution_time : String
  completion_status : String
deriving DecidableEq, Repr

/-- The parsed test document: `./Testing/StartDateTime` and the `Test`
elements. -/
structure TestingDoc where
  start_date_time : String
  tests : List TestRec
deriving DecidableEq, Repr

/-- The `PAGE_HEADER` template after `.format(**values)`: braces doubled in
the source are literal braces of the CSS. -/
def PAGE_HEADER_render (date_time : String) (num_passed num_failed : Nat) :
    String :=
  "<!DOCTYPE html>\n<html>\n  <head>\n    <title>HEVx Test Results</title>\n    <style>\n      .summary \x7b font-weight: bold \x7d\n      .passed \x7b color: green \x7d\n      .failed \x7b color: red \x7d\n    </style>\n  </head>\n  <body>\n    <h1>Summary</h1>\n    <table class=\"summary\">\n      <tr><td>Time</td><td>" ++
    date_time ++
    "</td></tr>\n      <tr class=\"passed\"><td>Passed</td><td>" ++
    toString num_passed ++
    "</td></tr>\n      <tr class=\"failed\"><td>Failed</td><td>" ++
    toString num_failed ++ "</td></tr>\n    </table>"

/-- The `PAGE_FOOTER` template. -/
def PAGE_FOOTER : String := "  </body>\n</html>"

/-- The `TABLE_HEADER` template after `.format(title=...)`. -/
def TABLE_HEADER_render (title : String) : String :=
  "    <h1>" ++ title ++
    "</h1>\n    <table>\n      <tr><th>Name</th><th>Execution Time (s)</th><th>Completion Status</th></tr>"

/-- The `TABLE_ITEM` template after `.format(**parse_test(test))`. -/
def TABLE_ITEM_render (t : TestRec) : String :=
  "     <tr><td>" ++ t.name ++ "</td><td>" ++ t.execution_time ++
    "</td><td>" ++ t.completion_status ++ "</td></tr>"

/-- The `TABLE_FOOTER` template. -/
def TABLE_FOOTER : String := "    </table>"

/-- The `INDEX_ITEM` template after `.format(date_time, num_passed,
num_failed, html_fn)`.  Note it carries no trailing newline in the source. -/
def INDEX_ITEM_render (date_time : String) (num_passed num_failed : Nat)
    (html_fn : String) : String :=
  "      <tr><td class=\"alignedleft\">" ++ date_time ++
    "</td><td class=\"passed\">" ++ toString num_passed ++
    "</td><td class=\"failed\">" ++ toString num_failed ++
    "</td><td><a href=\"" ++ html_fn ++ "\">Details</a></td></tr>"

/-- The sentinel comment marking the insertion point in `index.html`. -/
def SENTINEL : String := "<!-- !! DO NOT REMOVE THIS LINE !! -->"

/-- The tests with `Status="passed"`
(`test_root.findall('./Testing/Test[@Status="passed"]')`). -/
def passedTests (d : TestingDoc) : List TestRec :=
  d.tests.filter (fun t => t.status == "passed")

/-- The tests with `Status="failed"`. -/
def failedTests (d : TestingDoc) : List TestRec :=
  d.tests.filter (fun t => t.status == "failed")

/-- `write_report` (lines 73-99): the detail page written to `html_path`
(as one string, in the order of the `fh.write` calls) together with
`values['num_passed']` and `values['num_failed']`, which it returns. -/
def write_report (d : TestingDoc) : String × Nat × Nat :=
  let num_passed := (passedTests d).length
  let num_failed := (failedTests d).length
  (PAGE_HEADER_render d.start_date_time num_passed num_failed ++
     TABLE_HEADER_render "Passed Tests" ++
     String.join ((passedTests d).map TABLE_ITEM_render) ++
     TABLE_FOOTER ++
     TABLE_HEADER_render "Failed Tests" ++
     String.join ((failedTests d).map TABLE_ITEM_render) ++
     TABLE_FOOTER ++
     PAGE_FOOTER,
   num_passed, num_failed)

/-- Boolean substring test: models `re.search(pat, line)` for the literal
sentinel pattern (no effective metacharacters). -/
def strContains (s pat : String) : Bool :=
  s.toList.tails.any (fun t => pat.toList.isPrefixOf t)

/-- The line transformation of `update_index` (lines 107-114): each line is
copied through; a line matching the sentinel is preceded by one new
`INDEX_ITEM` row. -/
def update_index_lines (date_time : String) (num_passed num_failed : Nat)
    (html_fn : String) (lines : List String) : List String :=
  lines.flatMap (fun line =>
    if strContains line SENTINEL then
      [INDEX_ITEM_render date_time num_passed num_failed html_fn, line]
    else [line])

/-- A file's permission metadata (`st_mode` etc., copied by
`shutil.copystat`) and its contents as the list of lines. -/
structure FileData where
  perms : Nat
  content : List String
deriving DecidableEq, Repr

/-- The two files `update_index` touches: the index file and the temporary
file. -/
structure IndexFs where
  index : Option FileData
  temp : Option FileData
deriving DecidableEq, Repr

/-- The states traversed by `update_index` (lines 101-118): the initial
state; the state after the temporary file has been completely written; the
state after `shutil.copystat(index_path, out_fn)`; and the state after
`shutil.move(out_fn, index_path)` replaced the index in one move.  `none`
when the index file does not exist (the initial `open` would fail). -/
def update_index_trace (date_time : String) (num_passed num_failed : Nat)
    (html_fn : String) (tempPerms : Nat) (s0 : IndexFs) :
    Option (List IndexFs) :=
  match s0.index with
  | none => none
  | some f =>
    let newLines :=
      update_index_lines date_time num_passed num_failed html_fn f.content
    let s1 : IndexFs := { s0 with temp := some ⟨tempPerms, newLines⟩ }
    let s2 : IndexFs := { s0 with temp := some ⟨f.perms, newLines⟩ }
    let s3 : IndexFs := { index := some ⟨f.perms, newLines⟩, temp := none }
    some [s0, s1, s2, s3]

theorem flatMap_singleton_id {α : Type} {f : α → List α} {l : List α}
    (h : ∀ x ∈ l, f x = [x]) : l.flatMap f = l := by
  induction l with
  | nil => rfl
  | cons a t ih =>
    rw [List.flatMap_cons, h a (by simp),
      ih (fun x hx => h x (by simp [hx]))]
    rfl

/-- C5: for a test document with exactly three records, two `passed` and one
`failed` (distinct names and times), `write_report` returns
`num_passed = 2` and `num_failed = 1`, and `update_index` inserts exactly
one new row with those counts immediately before the sentinel line, keeping
every other line, and the sentinel itself, unchanged and in order. -/
theorem c5_three_record_report (d : TestingDoc)
    (hstat : List.Perm (d.tests.map (fun t => t.status))
      ["passed", "passed", "failed"])
    (_hnames : (d.tests.map (fun t => t.name)).Nodup)
    (_htimes : (d.tests.map (fun t => t.execution_time)).Nodup) :
    (write_report d).2.1 = 2 ∧ (write_report d).2.2 = 1 ∧
    ∀ (date_time html_fn : String) (pre post : List String) (s : String),
      (∀ l ∈ pre, strContains l SENTINEL = false) →
      (∀ l ∈ post, strContains l SENTINEL = false) →
      strContains s SENTINEL = true →
      update_index_lines date_time (write_report d).2.1 (write_report d).2.2
          html_fn (pre ++ s :: post)
        = pre ++ INDEX_ITEM_render date_time 2 1 html_fn :: s :: post := by
  have hcount : ∀ v : String,
      (d.tests.filter (fun t => t.status == v)).length
        = List.countP (fun x => x == v) ["passed", "passed", "failed"] := by
    intro v
    rw [← List.countP_eq_length_filter]
    have hm : List.countP (fun x => x == v)
          (d.tests.map (fun t => t.status))
        = List.countP (fun t : TestRec => t.status == v) d.tests := by
      rw [List.countP_map]; rfl
    rw [← hm, hstat.countP_eq]
  have h1 : (write_report d).2.1 = 2 := by
    show (passedTests d).length = 2
    rw [passedTests, hcount "passed"]
    decide
  have h2 : (write_report d).2.2 = 1 := by
    show (failedTests d).length = 1
    rw [failedTests, hcount "failed"]
    decide
  refine ⟨h1, h2, ?_⟩
  intro date_time html_fn pre post s hpre hpost hs
  rw [h1, h2, update_index_lines, List.flatMap_append, List.flatMap_cons,
    if_pos hs,
    flatMap_singleton_id (fun x hx => by rw [if_neg (by simp [hpre x hx])]),
    flatMap_singleton_id (fun x hx => by rw [if_neg (by simp [hpost x hx])])]
  rfl

/-- Witness for C5: a concrete three-record document (two passed, one
failed) and the one-line sentinel index. -/
theorem c5_three_record_report_witness :
    (write_report ⟨"2020-01-01 00:00",
      [⟨"passed", "ta", "0.1", "Completed"⟩,
       ⟨"passed", "tb", "0.2", "Completed"⟩,
       ⟨"failed", "tc", "0.3", "Completed"⟩]⟩).2.1 = 2 ∧
    (write_report ⟨"2020-01-01 00:00",
      [⟨"passed", "ta", "0.1", "Completed"⟩,
       ⟨"passed", "tb", "0.2", "Completed"⟩,
       ⟨"failed", "tc", "0.3", "Completed"⟩]⟩).2.2 = 1 ∧
    update_index_lines "2020-01-01 00:00"
        (write_report ⟨"2020-01-01 00:00",
          [⟨"passed", "ta", "0.1", "Completed"⟩,
           ⟨"passed", "tb", "0.2", "Completed"⟩,
           ⟨"failed", "tc", "0.3", "Completed"⟩]⟩).2.1
        (write_report ⟨"2020-01-01 00:00",
          [⟨"passed", "ta", "0.1", "Completed"⟩,
           ⟨"passed", "tb", "0.2", "Completed"⟩,
           ⟨"failed", "tc", "0.3", "Completed"⟩]⟩).2.2
        "r.html" ([] ++ SENTINEL :: [])
      = [] ++ INDEX_ITEM_render "2020-01-01 00:00" 2 1 "r.html"
          :: SENTINEL :: [] := by
  have h := c5_three_record_report ⟨"2020-01-01 00:00",
      [⟨"passed", "ta", "0.1", "Completed"⟩,
       ⟨"passed", "tb", "0.2", "Completed"⟩,
       ⟨"failed", "tc", "0.3", "Completed"⟩]⟩
    (List.Perm.refl _) (by decide) (by decide)
  exact ⟨h.1, h.2.1, h.2.2 "2020-01-01 00:00" "r.html" [] []
    SENTINEL (by simp) (by simp) (by decide)⟩

/-- C8: for an existing index file, `update_index` writes a complete
temporary file, leaves the index untouched in every state before the final
one, replaces it in the single final move, and the replaced index carries
the permission metadata the original had before the call. -/
theorem c8_update_index_atomic (date_time html_fn : String)
    (num_passed num_failed tempPerms : Nat) (s0 : IndexFs) (f : FileData)
    (h : s0.index = some f) :
    ∃ tr, update_index_trace date_time num_passed num_failed html_fn
        tempPerms s0 = some tr ∧
      tr.head? = some s0 ∧
      (∀ s ∈ tr.dropLast, s.index = s0.index) ∧
      tr.dropLast.getLast?.map (fun s => s.temp)
        = some (some ⟨f.perms, update_index_lines date_time num_passed
            num_failed html_fn f.content⟩) ∧
      tr.getLast? = some ⟨some ⟨f.perms, update_index_lines date_time
          num_passed num_failed html_fn f.content⟩, none⟩ := by
  obtain ⟨idx, tmp⟩ := s0
  have h' : idx = some f := h
  subst h'
  refine ⟨_, rfl, rfl, ?_, by simp [List.getLast?_cons_cons], by
    simp [List.getLast?_cons_cons]⟩
  intro s hs
  simp only [List.dropLast, List.mem_cons, List.not_mem_nil, or_false] at hs
  rcases hs with rfl | rfl | rfl <;> rfl

/-- Witness for C8 at a concrete index file. -/
theorem c8_update_index_atomic_witness :
    ∃ tr, update_index_trace "2020-01-01 00:00" 2 1 "r.html" 7
        ⟨some ⟨420, ["row1", "row2"]⟩, none⟩ = some tr ∧
      tr.head? = some ⟨some ⟨420, ["row1", "row2"]⟩, none⟩ ∧
      (∀ s ∈ tr.dropLast,
        s.index = (⟨some ⟨420, ["row1", "row2"]⟩, none⟩ : IndexFs).index) ∧
      tr.dropLast.getLast?.map (fun s => s.temp)
        = some (some ⟨420, update_index_lines "2020-01-01 00:00" 2 1
            "r.html" ["row1", "row2"]⟩) ∧
      tr.getLast? = some ⟨some ⟨420, update_index_lines "2020-01-01 00:00"
          2 1 "r.html" ["row1", "row2"]⟩, none⟩ :=
  c8_update_index_atomic "2020-01-01 00:00" "r.html" 2 1 7
    ⟨some ⟨420, ["row1", "row2"]⟩, none⟩ ⟨420, ["row1", "row2"]⟩ rfl

/-- C9: when no line of the index file matches the sentinel, `update_index`
copies every line through unchanged (no row is inserted), and the rewrite
completes normally, ending with the index contents exactly as before. -/
theorem c9_missing_sentinel (date_time html_fn : String)
    (num_passed num_failed tempPerms : Nat) (s0 : IndexFs) (f : FileData)
    (hidx : s0.index = some f)
    (h : ∀ l ∈ f.content, strContains l SENTINEL = false) :
    update_index_lines date_time num_passed num_failed html_fn f.content
      = f.content ∧
    ∃ tr, update_index_trace date_time num_passed num_failed html_fn
        tempPerms s0 = some tr ∧
      tr.getLast? = some ⟨some ⟨f.perms, f.content⟩, none⟩ := by
  have hid : update_index_lines date_time num_passed num_failed html_fn
      f.content = f.content :=
    flatMap_singleton_id (fun x hx => by rw [if_neg (by simp [h x hx])])
  refine ⟨hid, ?_⟩
  obtain ⟨idx, tmp⟩ := s0
  have h' : idx = some f := hidx
  subst h'
  exact ⟨_, rfl, by simp [List.getLast?_cons_cons, hid]⟩

/-- Witness for C9 at a concrete sentinel-free index file. -/
theorem c9_missing_sentinel_witness :
    update_index_lines "2020-01-01 00:00" 2 1 "r.html" ["<html>", "</html>"]
      = ["<html>", "</html>"] ∧
    ∃ tr, update_index_trace "2020-01-01 00:00" 2 1 "r.html" 7
        ⟨some ⟨420, ["<html>", "</html>"]⟩, none⟩ = some tr ∧
      tr.getLast? = some ⟨some ⟨420, ["<html>", "</html>"]⟩, none⟩ :=
  c9_missing_sentinel "2020-01-01 00:00" "r.html" 2 1 7
    ⟨some ⟨420, ["<html>", "</html>"]⟩, none⟩ ⟨420, ["<html>", "</html>"]⟩
    rfl (by decide)

end Report

end Hevx
